import Mathlib

/-!
Verification of the vermouth-martinize core data model and mapping engine.

The Python source is shallowly embedded: attribute dictionaries become
insertion-ordered association lists, Python values become the `PyVal`
inductive, molecules become explicit records, and mutating methods become
functions returning the updated record together with an optional error
(modelling a raised exception) where the source can raise.
-/

namespace Vermouth

/-- A Python attribute value: `None`, an integer, a string, or a boolean. -/
inductive PyVal
  | none
  | int (n : Int)
  | str (s : String)
  | bool (b : Bool)
  deriving DecidableEq, Repr

/-- Python truthiness of a `PyVal` (used for `if value:` style tests). -/
def PyVal.truthy : PyVal → Bool
  | .none => false
  | .int n => n != 0
  | .str s => s != ""
  | .bool b => b

/-- An attribute dictionary: insertion-ordered association list from keys to
values. Lookup takes the first binding of a key, as a Python dict has unique
keys. -/
abbrev Attrs := List (String × PyVal)

/-- `d.get(k)` with default `None`: first binding of `k`, or `PyVal.none`. -/
def attrGet (d : Attrs) (k : String) : PyVal :=
  match d.lookup k with
  | some v => v
  | Option.none => PyVal.none

/-- `d.get(k, dflt)`. -/
def attrGetD (d : Attrs) (k : String) (dflt : PyVal) : PyVal :=
  match d.lookup k with
  | some v => v
  | Option.none => dflt

/-- `k in d` for a Python dict. -/
def hasKey (d : Attrs) (k : String) : Bool :=
  (d.lookup k).isSome

/-- A template attribute value as consumed by `attributes_match`: either a
plain value compared with `==`, or one of the two `LinkPredicate` variants
from `molecule.py` (`Choice`, `NotDefinedOrNot`). -/
inductive TVal
  | plain (v : PyVal)
  | choice (vs : List PyVal)
  | notDefinedOrNot (v : PyVal)
  deriving DecidableEq, Repr

/-- One constraining entry of `template_attributes`, as tested inside the loop
of `attributes_match`: `Choice` matches when `node.get(key)` is in the value
set; `NotDefinedOrNot` matches when the key is missing or differs; a plain
value matches when `attributes.get(attr) == value`. -/
def tvalMatch (attrs : Attrs) (k : String) : TVal → Bool
  | .plain v => attrGet attrs k == v
  | .choice vs => vs.contains (attrGet attrs k)
  | .notDefinedOrNot v => !hasKey attrs k || attrGet attrs k != v

/-- `attributes_match(attributes, template_attributes, ignore_keys)` from
`molecule.py`: every non-ignored key of the template must match; any failure
returns `False`. -/
def attributes_match (attrs : Attrs) (template : List (String × TVal))
    (ignore_keys : List String) : Bool :=
  template.all fun kv =>
    if ignore_keys.contains kv.1 then true
    else tvalMatch attrs kv.1 kv.2

/-- An interaction record: ordered atom tuple, opaque parameter list, and a
metadata dictionary (`Interaction` namedtuple in `molecule.py`). -/
structure Interaction where
  atoms : List Nat
  parameters : List PyVal
  meta : Attrs
  deriving DecidableEq, Repr

/-- Lookup in an interaction dictionary with the `defaultdict(list)` default:
the list stored under the type, or `[]`. -/
def interactionsLookup (ints : List (String × List Interaction)) (type_ : String) :
    List Interaction :=
  match ints.lookup type_ with
  | some l => l
  | Option.none => []

/-- The attributes of one particle. The data model requires a residue id on
every particle (`merge_molecule` reads and offsets `resid` unconditionally);
`charge_group` is optional (`dict.get` with a default); all remaining
attributes are kept in `attrs`. -/
structure Particle where
  resid : Int
  charge_group : Option Int
  attrs : Attrs
  deriving DecidableEq, Repr

/-- A molecule: insertion-ordered particles keyed by integer id, undirected
edges, interaction lists keyed by type name (a `defaultdict(list)`), the
`nrexcl` exclusion radius, and the identity token of the referenced force
field (`None` when unset; `ForceField` has no `__eq__`, so `!=` compares
identity). -/
structure Molecule where
  nodes : List (Nat × Particle)
  edges : List (Nat × Nat)
  interactions : List (String × List Interaction)
  nrexcl : Option Int
  forceField : Option Nat
  deriving DecidableEq, Repr

/-- Python's `enumerate(xs, start)`. -/
def enumerateFrom {α : Type} (start : Nat) : List α → List (Nat × α)
  | [] => []
  | a :: rest => (start, a) :: enumerateFrom (start + 1) rest

namespace Molecule

/-- Node ids of the molecule. -/
def keys (m : Molecule) : List Nat := m.nodes.map Prod.fst

/-- `atom in self`: membership of an id among the nodes. -/
def hasNode (m : Molecule) (idx : Nat) : Bool := m.keys.contains idx

/-- Look up the attributes of a node (`self.node[idx]`). -/
def getNode (m : Molecule) (idx : Nat) : Option Particle := m.nodes.lookup idx

/-- `self.interactions[type_]` of the `defaultdict(list)`: the stored list,
or `[]` for an absent key. -/
def interactionsGet (m : Molecule) (type_ : String) : List Interaction :=
  interactionsLookup m.interactions type_

/-- Append an interaction to the per-type list, creating the key at the end
of the dictionary if it is new (as `defaultdict(list)` does). -/
def interactionsAppend (ints : List (String × List Interaction)) (type_ : String)
    (i : Interaction) : List (String × List Interaction) :=
  match ints with
  | [] => [(type_, [i])]
  | (t, l) :: rest =>
    if t = type_ then (t, l ++ [i]) :: rest
    else (t, l) :: interactionsAppend rest type_ i

/-- `Molecule.add_interaction`: every atom is checked for membership before
anything is appended; the first unknown atom raises `ValueError`, leaving the
molecule untouched. The result pairs the (possibly updated) molecule with the
raised error, if any. -/
def add_interaction (m : Molecule) (type_ : String) (atoms : List Nat)
    (parameters : List PyVal) (meta : Attrs) : Molecule × Option String :=
  match atoms.find? (fun a => !m.hasNode a) with
  | some _ => (m, some "ValueError: Unknown atom")
  | Option.none =>
    let ints := interactionsAppend m.interactions type_
      (Interaction.mk atoms parameters meta)
    ({ m with interactions := ints }, Option.none)

/-- `Molecule.remove_interaction(type_, atoms, version=0)`: scans the stored
list for the first interaction whose atom tuple equals `atoms` **and** whose
`meta.get('version', 0)` is truthy (the source tests the tag's truthiness; the
`version` argument is not compared). Deletes it, or raises `KeyError` if the
scan finds none. -/
def remove_interaction (m : Molecule) (type_ : String) (atoms : List Nat)
    (version : Int) : Except String Molecule :=
  match (m.interactionsGet type_).findIdx?
      (fun i => i.atoms == atoms && (attrGetD i.meta "version" (.int 0)).truthy) with
  | some idx =>
    .ok { m with interactions :=
      (m.interactions.map fun tl =>
        if tl.1 = type_ then (tl.1, tl.2.eraseIdx idx) else tl) }
  | Option.none =>
    .error ("KeyError: no interaction of type " ++ toString version)

/-- The repository-wide invariant that every atom referenced by a stored
interaction exists in the owning graph. -/
def interactionAtomsValid (m : Molecule) : Prop :=
  ∀ tl ∈ m.interactions, ∀ i ∈ tl.2, ∀ a ∈ i.atoms, m.hasNode a = true

instance (m : Molecule) : Decidable m.interactionAtomsValid :=
  inferInstanceAs (Decidable (∀ tl ∈ m.interactions, ∀ i ∈ tl.2, ∀ a ∈ i.atoms,
    m.hasNode a = true))

/-- Merge the attribute dictionary `new` into `old`, as `dict.update` does:
existing keys keep their position and take the new value, new keys are
appended. -/
def attrsUpdate (old new : Attrs) : Attrs :=
  (old.map fun kv =>
    match new.lookup kv.1 with
    | some v => (kv.1, v)
    | Option.none => kv) ++ new.filter (fun kv => !hasKey old kv.1)

/-- Updating an existing particle with `add_node`'s keyword attributes:
`resid` is always among the passed attributes, `charge_group` only when set,
and the remaining attributes are merged dictionary-style. -/
def updateParticle (old new : Particle) : Particle :=
  { resid := new.resid
    charge_group := match new.charge_group with
      | some c => some c
      | Option.none => old.charge_group
    attrs := attrsUpdate old.attrs new.attrs }

/-- `networkx.Graph.add_node(idx, **attrs)`: update the attributes of an
existing node in place, or append a fresh node at the end of the ordered node
dictionary. -/
def addNode (m : Molecule) (idx : Nat) (p : Particle) : Molecule :=
  if m.hasNode idx then
    { m with nodes := m.nodes.map fun kp =>
        if kp.1 = idx then (idx, updateParticle kp.2 p) else kp }
  else
    { m with nodes := m.nodes ++ [(idx, p)] }

/-- Undirected edge membership. -/
def hasEdgeN (m : Molecule) (u v : Nat) : Bool :=
  m.edges.any fun e => (e.1 == u && e.2 == v) || (e.1 == v && e.2 == u)

/-- `networkx.Graph.add_edge` restricted to its effect on the edge set: adds
the undirected edge unless it is already present. (The callers modeled here
only ever pass endpoints that are existing nodes.) -/
def addEdge (m : Molecule) (u v : Nat) : Molecule :=
  if m.hasEdgeN u v then m else { m with edges := m.edges ++ [(u, v)] }

/-- `max(self)`: the largest node id, or `None` for an empty molecule. -/
def maxKey (m : Molecule) : Option Nat :=
  match m.keys with
  | [] => Option.none
  | k :: ks => some (ks.foldl Nat.max k)

/-- The body of the node loop of `merge_molecule`: copy the atom, offset its
`resid` by `residue_offset` and its `charge_group` (defaulting to 0) by
`offset_charge_group`. -/
def shiftParticle (residue_offset offset_charge_group : Int) (p : Particle) : Particle :=
  { p with resid := p.resid + residue_offset
           charge_group := some (p.charge_group.getD 0 + offset_charge_group) }

/-- `correspondence[atom]`: raises `KeyError` (modeled as `Option.none`) when
the atom is not a key. -/
def corrLookup (corr : List (Nat × Nat)) (a : Nat) : Option Nat := corr.lookup a

/-- The inner interaction loop of `merge_molecule` for one interaction type:
translate each interaction's atoms through the correspondence and
`add_interaction` it; a failing lookup or an unknown atom raises, stopping the
loop with the state reached so far. -/
def addInteractionsOf (corr : List (Nat × Nat)) (st : Molecule) (type_ : String) :
    List Interaction → Molecule × Option String
  | [] => (st, Option.none)
  | i :: rest =>
    match i.atoms.mapM (corrLookup corr) with
    | Option.none => (st, some "KeyError: correspondence")
    | some atoms =>
      match st.add_interaction type_ atoms i.parameters i.meta with
      | (st', some e) => (st', some e)
      | (st', Option.none) => addInteractionsOf corr st' type_ rest

/-- The outer interaction loop of `merge_molecule` over
`molecule.interactions.items()`. -/
def mergeInteractions (corr : List (Nat × Nat)) (st : Molecule) :
    List (String × List Interaction) → Molecule × Option String
  | [] => (st, Option.none)
  | (t, l) :: rest =>
    match addInteractionsOf corr st t l with
    | (st', some e) => (st', some e)
    | (st', Option.none) => mergeInteractions corr st' rest

/-- The new node entries created by the node loop of `merge_molecule`: the
`j`-th node of the other molecule (0-based) becomes node `offset + j`, with
its particle attributes shifted. -/
def mergeNewNodes (offset : Nat) (residue_offset offset_charge_group : Int)
    (nodes : List (Nat × Particle)) : List (Nat × Particle) :=
  (enumerateFrom offset nodes).map
    fun jp => (jp.1, shiftParticle residue_offset offset_charge_group jp.2.2)

/-- The `correspondence` dictionary built by the node loop of
`merge_molecule`: other-molecule id to new id. -/
def mergeCorrespondence (offset : Nat) (nodes : List (Nat × Particle)) :
    List (Nat × Nat) :=
  (enumerateFrom offset nodes).map fun jp => (jp.2.1, jp.1)

/-- The edge loop of `merge_molecule`: add each of `other`'s edges translated
through the correspondence. -/
def mergeEdges (corr : List (Nat × Nat)) (st : Molecule) :
    List (Nat × Nat) → Molecule × Option String
  | [] => (st, Option.none)
  | (u, v) :: rest =>
    match corrLookup corr u, corrLookup corr v with
    | some u', some v' => mergeEdges corr (addEdge st u' v') rest
    | _, _ => (st, some "KeyError: correspondence")

/-- The outcome of `Molecule.merge_molecule`: the receiver's state after the
call (up to the point of a raise, if any), the raised error, the value the
Python function returns, and, for specification purposes, the local
`correspondence` dictionary it built. -/
structure MergeResult where
  state : Molecule
  error : Option String
  ret : Option (List (Nat × Nat))
  correspondence : List (Nat × Nat)
  deriving DecidableEq, Repr

/-- The part of `merge_molecule` after the offsets are computed: the node
loop, the interaction loops, and the edge loop. The function body ends
without a `return` statement, so the returned value (`ret`) is Python's
`None`. -/
def mergeBody (self other : Molecule) (offset : Nat)
    (residue_offset offset_charge_group : Int) : MergeResult :=
  let newNodes := mergeNewNodes offset residue_offset offset_charge_group other.nodes
  let correspondence := mergeCorrespondence offset other.nodes
  let state1 := newNodes.foldl (fun st kp => addNode st kp.1 kp.2) self
  match mergeInteractions correspondence state1 other.interactions with
  | (st2, some e) => MergeResult.mk st2 (some e) Option.none correspondence
  | (st2, Option.none) =>
    match mergeEdges correspondence st2 other.edges with
    | (st3, some e) => MergeResult.mk st3 (some e) Option.none correspondence
    | (st3, Option.none) => MergeResult.mk st3 Option.none Option.none correspondence

/-- `Molecule.merge_molecule(molecule)` from `molecule.py`: raise on a force
field identity mismatch, then on an `nrexcl` mismatch; otherwise compute the
id, residue and charge-group offsets from the largest existing node (or 0 for
an empty receiver) and run the copy loops. -/
def merge_molecule (self other : Molecule) : MergeResult :=
  if self.forceField ≠ other.forceField then
    MergeResult.mk self
      (some "ValueError: Cannot merge molecules with different force fields.")
      Option.none []
  else if self.nrexcl ≠ other.nrexcl then
    MergeResult.mk self
      (some "ValueError: Cannot merge molecules with different nrexcl.")
      Option.none []
  else
    match maxKey self with
    | some last =>
      match self.getNode last with
      | some lastP =>
        mergeBody self other (last + 1) (lastP.resid + 1)
          ((lastP.charge_group.getD (-1)) + 1)
      | Option.none =>
        -- Unreachable: the maximal key of a nonempty node list is a key.
        MergeResult.mk self (some "KeyError") Option.none []
    | Option.none => mergeBody self other 0 0 0

/-- The id offset `merge_molecule` applies: one past the largest existing
node id, or 0 for an empty receiver. -/
def mergeOffset (m : Molecule) : Nat :=
  match maxKey m with
  | some last => last + 1
  | Option.none => 0

/-- An interaction with every atom id shifted by `offset`. -/
def shiftInteraction (offset : Nat) (i : Interaction) : Interaction :=
  { i with atoms := i.atoms.map (offset + ·) }

end Molecule

/-- A Block interaction: atoms are referred to by template-local name. -/
structure BInteraction where
  atoms : List String
  parameters : List PyVal
  meta : Attrs
  deriving DecidableEq, Repr

/-- A residue template (`Block` in `molecule.py`): particles keyed by name,
undirected edges between names, interactions keyed by type. -/
structure Block where
  nodes : List (String × Attrs)
  edges : List (String × String)
  interactions : List (String × List BInteraction)
  deriving DecidableEq, Repr

namespace Block

/-- `self.interactions.get(type_, [])`. -/
def interactionsGet (b : Block) (type_ : String) : List BInteraction :=
  match b.interactions.lookup type_ with
  | some l => l
  | Option.none => []

/-- Undirected edge membership between two atom names. -/
def hasEdge (b : Block) (u v : String) : Bool :=
  b.edges.any fun e => (e.1 == u && e.2 == v) || (e.1 == v && e.2 == u)

/-- `add_edge` inserts missing endpoints as attribute-less nodes. -/
def ensureNode (b : Block) (n : String) : Block :=
  if (b.nodes.map Prod.fst).contains n then b
  else { b with nodes := b.nodes ++ [(n, [])] }

/-- Append the edge unless it is already present. -/
def addEdgeIfAbsent (b : Block) (u v : String) : Block :=
  if b.hasEdge u v then b else { b with edges := b.edges ++ [(u, v)] }

/-- `networkx.Graph.add_edge` on a `Block`: insert missing endpoints, then
record the edge if new. -/
def addEdge (b : Block) (u v : String) : Block :=
  addEdgeIfAbsent ((b.ensureNode u).ensureNode v) u v

/-- `zip(atoms[:-1], atoms[1:])`: the consecutive pairs of an atom tuple. -/
def consecutivePairs (atoms : List String) : List (String × String) :=
  atoms.zip atoms.tail

/-- Whether an interaction's metadata enables edge generation:
`interaction.meta.get('edge', True)` under Python truthiness. -/
def edgeEnabled (i : BInteraction) : Bool :=
  (attrGetD i.meta "edge" (.bool true)).truthy

/-- `Block.make_edges_from_interaction_type(type_)`: for every stored
interaction of the type whose metadata does not disable edge generation, add
an edge between every pair of consecutive atoms. -/
def make_edges_from_interaction_type (b : Block) (type_ : String) : Block :=
  (b.interactionsGet type_).foldl
    (fun acc i =>
      if edgeEnabled i then
        (consecutivePairs i.atoms).foldl (fun acc2 p => acc2.addEdge p.1 p.2) acc
      else acc)
    b

/-- The fixed edge-generating interaction types of
`make_edges_from_interactions`. -/
def knownTypes : List String := ["bonds", "angles", "dihedrals", "cmap", "constraints"]

/-- `Block.make_edges_from_interactions`: run the per-type edge generation
for each known type; all other interaction types are never consulted. -/
def make_edges_from_interactions (b : Block) : Block :=
  knownTypes.foldl (fun acc t => acc.make_edges_from_interaction_type t) b

/-- The union of consecutive atom pairs described by the specification: an
unordered pair `(u, v)` is in the union exactly when some interaction of a
known type with edge generation enabled lists the two atoms consecutively.
This is the spec-side description the code's edge set is compared against. -/
def specEdgeUnion (b : Block) (u v : String) : Bool :=
  knownTypes.any fun t => (b.interactionsGet t).any fun i =>
    edgeEnabled i &&
      (consecutivePairs i.atoms).any fun p =>
        (p.1 == u && p.2 == v) || (p.1 == v && p.2 == u)

end Block

/-- Python's `list.remove(x)`: delete the first occurrence of `x`, raising
`ValueError` when `x` is absent. -/
def removePy (l : List String) (x : String) : Except String (List String) :=
  if l.contains x then .ok (l.erase x) else .error "ValueError: x not in list"

/-- The removal loop of `cover`: `for item in option: left_to_cover.remove(item)`. -/
def removeItems (tc : List String) : List String → Except String (List String)
  | [] => .ok tc
  | x :: rest =>
    match removePy tc x with
    | .ok tc' => removeItems tc' rest
    | .error e => .error e

/-- The option loop of `cover` over the remaining suffix of `options`. Note
that the recursive call receives `options[idx:]`, the suffix *including* the
current option. `recur` is the recursive occurrence of `cover`. -/
def coverGo
    (recur : List String → List (List String) → Except String (Option (List (List String))))
    (to_cover : List String) :
    List (List String) → Except String (Option (List (List String)))
  | [] => .ok Option.none
  | option :: rest =>
    if option.all (to_cover.contains ·) then
      match removeItems to_cover option with
      | .error e => .error e
      | .ok left =>
        match recur left (option :: rest) with
        | .error e => .error e
        | .ok (some found) => .ok (some (option :: found))
        | .ok Option.none => coverGo recur to_cover rest
    else coverGo recur to_cover rest

/-- `cover(to_cover, options)` from `do_mapping.py`, with an explicit
recursion-depth bound standing for Python's interpreter recursion limit: at
depth 0 the call raises `RecursionError`. An empty `to_cover` returns the
empty cover; otherwise each usable option is tried in order and the search
backtracks, returning `None` (`Option.none`) when the option list is
exhausted. -/
def coverF : Nat → List String → List (List String) →
    Except String (Option (List (List String)))
  | 0, _, _ => .error "RecursionError: maximum recursion depth exceeded"
  | fuel + 1, to_cover, options =>
    if to_cover.isEmpty then .ok (some [])
    else coverGo (coverF fuel) to_cover options

/-- `cover` with a depth budget that can never be exhausted when every option
is nonempty, because each recursive call strictly shrinks `to_cover`. -/
def cover (to_cover : List String) (options : List (List String)) :
    Except String (Option (List (List String))) :=
  coverF (to_cover.length + 1) to_cover options

/-- The match scheduling loop of `do_mapping` (lines 345-362), acting on the
two stacks of minimum source-atom ids. The source keeps both match lists
sorted descending by minimum id and pops from the back; popping the back of a
descending sort is popping the front of the ascending sort used here. A
`true` tag is a block match, a `false` tag a modification match; a
modification is popped when no block matches remain, or when both stacks are
nonempty and the modification stack's minimum is strictly smaller. -/
def mergeMatchOrder : List Nat → List Nat → List (Bool × Nat)
  | [], [] => []
  | [], m :: ms => (false, m) :: mergeMatchOrder [] ms
  | b :: bs, [] => (true, b) :: mergeMatchOrder bs []
  | b :: bs, m :: ms =>
    if m < b then (false, m) :: mergeMatchOrder (b :: bs) ms
    else (true, b) :: mergeMatchOrder bs (m :: ms)
  termination_by bs ms => bs.length + ms.length

/-- Ascending sort of the minimum ids (the source's
`sorted(..., key=min keys, reverse=True)` read back to front). -/
def sortAscending (l : List Nat) : List Nat := l.insertionSort (· ≤ ·)

/-- The complete ordering performed by `do_mapping`: sort both match lists by
their minimum source-atom id, then interleave them with `mergeMatchOrder`. -/
def doMappingOrder (blocks mods : List Nat) : List (Bool × Nat) :=
  mergeMatchOrder (sortAscending blocks) (sortAscending mods)

/-- `networkx` adjacency of a node: the ids of its neighbors. -/
def neighbors (m : Molecule) (n : Nat) : List Nat :=
  m.edges.filterMap fun e =>
    if e.1 = n then some e.2
    else if e.2 = n then some e.1
    else Option.none

/-- `graph_out[out_idx]`: the adjacency mapping of a node, a dictionary from
*neighbor id* to the edge-attribute dictionary (no edge attributes are set in
this pipeline). -/
def adjacencyDict (m : Molecule) (n : Nat) : List (PyVal × Attrs) :=
  (neighbors m n).map fun k => (PyVal.int (Int.ofNat k), [])

/-- `graph_out[out_idx].get('atomname', '')` in `do_mapping` (line 403): a
string key looked up in the integer-keyed adjacency dictionary. -/
def adjacencyGetAtomname (m : Molecule) (n : Nat) : Option Attrs :=
  (adjacencyDict m n).lookup (PyVal.str "atomname")

/-- The removal test of `do_mapping` line 403,
`graph_out[out_idx].get('atomname', '') is None`: a hit yields an
edge-attribute dictionary (never the `None` singleton), a miss yields the
default `''`, which is compared with `is None`. -/
def removalTest (m : Molecule) (out_idx : Nat) : Bool :=
  match adjacencyGetAtomname m out_idx with
  | some _ => false
  | Option.none => PyVal.str "" == PyVal.none

/-- The accumulation of `to_remove` over the processed output indices in the
Step 3 loop of `do_mapping`. -/
def doMappingToRemove (graph_out : Molecule) (outIdxs : List Nat) : List Nat :=
  outIdxs.filter (removalTest graph_out)

/-- `graph_out.remove_nodes_from(to_remove)`: drop the listed nodes and their
incident edges. -/
def removeNodesFrom (m : Molecule) (l : List Nat) : Molecule :=
  { m with
    nodes := m.nodes.filter fun kp => !l.contains kp.1
    edges := m.edges.filter fun e => !l.contains e.1 && !l.contains e.2 }

/-! Concrete molecules, blocks and interactions used to evaluate the code on
specific inputs. -/

/-- A plain particle with residue id 1 and charge group 0. -/
def exParticle : Particle := { resid := 1, charge_group := some 0, attrs := [] }

/-- A bond interaction between atoms 0 and 1 with no metadata. -/
def exBond01 : Interaction := { atoms := [0, 1], parameters := [], meta := [] }

/-- The same bond carrying an explicit version tag of 1. -/
def exBondV1 : Interaction :=
  { atoms := [0, 1], parameters := [], meta := [("version", PyVal.int 1)] }

/-- A two-particle molecule storing one version-less bond. -/
def exMolC5 : Molecule :=
  { nodes := [(0, exParticle), (1, exParticle)], edges := []
    interactions := [("bonds", [exBond01])]
    nrexcl := Option.none, forceField := Option.none }

/-- A two-particle molecule storing one bond with version tag 1. -/
def exMolC5v : Molecule :=
  { nodes := [(0, exParticle), (1, exParticle)], edges := []
    interactions := [("bonds", [exBondV1])]
    nrexcl := Option.none, forceField := Option.none }

/-- A one-particle molecule (ids 0). -/
def exM1 : Molecule :=
  { nodes := [(0, exParticle)], edges := [], interactions := []
    nrexcl := Option.none, forceField := Option.none }

/-- A two-particle molecule with contiguous ids 0, 1, one edge and one bond. -/
def exM2 : Molecule :=
  { nodes := [(0, exParticle), (1, exParticle)], edges := [(0, 1)]
    interactions := [("bonds", [exBond01])]
    nrexcl := Option.none, forceField := Option.none }

/-- A two-particle molecule with the non-contiguous ids 0 and 2 and an edge
between them. -/
def exM2gap : Molecule :=
  { nodes := [(0, exParticle), (2, exParticle)], edges := [(0, 2)]
    interactions := [], nrexcl := Option.none, forceField := Option.none }

/-- An output molecule holding a particle (id 0) whose resolved `atomname`
is `None`, connected to a normal particle (id 1). -/
def exMolNoneName : Molecule :=
  { nodes := [(0, { resid := 1, charge_group := Option.none
                    attrs := [("atomname", PyVal.none)] }), (1, exParticle)]
    edges := [(0, 1)], interactions := [], nrexcl := Option.none
    forceField := some 7 }

/-- A linear three-atom block with a single bonds interaction A-B-C. -/
def exBlock : Block :=
  { nodes := [("A", []), ("B", []), ("C", [])], edges := []
    interactions := [("bonds", [{ atoms := ["A", "B", "C"], parameters := []
                                  meta := [] }])] }

/-- A block with one pre-existing edge and no interactions at all. -/
def exBlockPre : Block :=
  { nodes := [("X", []), ("Y", [])], edges := [("X", "Y")], interactions := [] }

/-- Whether `(x, y)` and `(u, v)` are the same unordered pair of names. -/
def pairMatchB (x y u v : String) : Bool :=
  (x == u && y == v) || (x == v && y == u)

/-- Whether `(x, y)` and `(u, v)` are the same unordered pair of ids. -/
def pairMatchN (x y u v : Nat) : Bool :=
  (x == u && y == v) || (x == v && y == u)

/-! Helper lemmas. -/

theorem tvalMatch_shadow_ne {k' k : String} (v : PyVal) (attrs : Attrs) (tv : TVal)
    (h : k' ≠ k) : tvalMatch ((k, v) :: attrs) k' tv = tvalMatch attrs k' tv := by
  have hb : (k' == k) = false := beq_eq_false_iff_ne.mpr h
  cases tv <;> simp [tvalMatch, attrGet, hasKey, List.lookup, hb]

theorem interactionsAppend_mem (ints : List (String × List Interaction)) (t : String)
    (iNew : Interaction) :
    ∀ tl ∈ Molecule.interactionsAppend ints t iNew, ∀ j ∈ tl.2,
      (∃ tl' ∈ ints, j ∈ tl'.2) ∨ j = iNew := by
  induction ints with
  | nil =>
    intro tl htl j hj
    simp [Molecule.interactionsAppend] at htl
    subst htl
    simp at hj
    exact Or.inr hj
  | cons hd rest ih =>
    intro tl htl j hj
    obtain ⟨s, l⟩ := hd
    simp only [Molecule.interactionsAppend] at htl
    by_cases hst : s = t
    · simp [hst] at htl
      rcases htl with h | h
      · subst h
        simp at hj
        rcases hj with hj | hj
        · exact Or.inl ⟨(s, l), by simp, by simpa [hst] using hj⟩
        · exact Or.inr hj
      · exact Or.inl ⟨tl, by simp [h], hj⟩
    · simp [hst] at htl
      rcases htl with h | h
      · subst h
        exact Or.inl ⟨(s, l), by simp, hj⟩
      · rcases ih tl h j hj with ⟨tl', htl', hjtl'⟩ | hnew
        · exact Or.inl ⟨tl', by simp [htl'], hjtl'⟩
        · exact Or.inr hnew

theorem removeItems_ok_perm :
    ∀ (option tc left : List String), removeItems tc option = .ok left →
      (option ++ left).Perm tc := by
  intro option
  induction option with
  | nil =>
    intro tc left h
    simp only [removeItems] at h
    cases h
    exact List.Perm.refl _
  | cons x rest ih =>
    intro tc left h
    simp only [removeItems, removePy] at h
    by_cases hx : tc.contains x = true
    · rw [if_pos hx] at h
      have hmem : x ∈ tc := by simpa using hx
      have hperm := (ih (tc.erase x) left h).cons x
      exact hperm.trans (List.perm_cons_erase hmem).symm
    · rw [if_neg hx] at h
      cases h

theorem removeItems_ok_of_nodup :
    ∀ (option tc : List String), option.Nodup → (∀ x ∈ option, x ∈ tc) →
      ∃ left, removeItems tc option = .ok left := by
  intro option
  induction option with
  | nil => intro tc _ _; exact ⟨tc, rfl⟩
  | cons x rest ih =>
    intro tc hnd hmem
    have hx : x ∈ tc := hmem x (List.mem_cons_self x rest)
    have hrest : ∀ y ∈ rest, y ∈ tc.erase x := by
      intro y hy
      have hyx : y ≠ x := by
        intro hc
        subst hc
        exact (List.pairwise_cons.mp hnd).1 y hy rfl
      exact (List.mem_erase_of_ne hyx).mpr (hmem y (List.mem_cons_of_mem x hy))
    obtain ⟨left, hleft⟩ := ih (tc.erase x) hnd.of_cons hrest
    refine ⟨left, ?_⟩
    simp only [removeItems, removePy]
    rw [if_pos (by simpa using hx)]
    exact hleft

theorem coverGo_sound (fuel : Nat)
    (ihf : ∀ (tc : List String) (options sol : List (List String)),
      coverF fuel tc options = .ok (some sol) →
      sol.flatten.Perm tc ∧ ∀ o ∈ sol, o ∈ options) :
    ∀ (suffix : List (List String)) (tc : List String) (sol : List (List String)),
      coverGo (coverF fuel) tc suffix = .ok (some sol) →
      sol.flatten.Perm tc ∧ ∀ o ∈ sol, o ∈ suffix := by
  intro suffix
  induction suffix with
  | nil =>
    intro tc sol h
    simp [coverGo] at h
  | cons option rest ihs =>
    intro tc sol h
    rw [coverGo] at h
    by_cases husable : option.all (tc.contains ·) = true
    · rw [if_pos husable] at h
      cases hrem : removeItems tc option with
      | error e =>
        simp only [hrem] at h
        exact Except.noConfusion h
      | ok left =>
        simp only [hrem] at h
        cases hrec : coverF fuel left (option :: rest) with
        | error e =>
          simp only [hrec] at h
          exact Except.noConfusion h
        | ok r =>
          simp only [hrec] at h
          cases r with
          | some found =>
            simp only [Except.ok.injEq, Option.some.injEq] at h
            subst h
            obtain ⟨hfperm, hfsub⟩ := ihf left (option :: rest) found hrec
            have hremperm := removeItems_ok_perm option tc left hrem
            constructor
            · show (option ++ found.flatten).Perm tc
              exact ((hfperm.append_left option).trans hremperm)
            · intro o ho
              rcases List.mem_cons.mp ho with rfl | ho
              · exact List.mem_cons_self _ _
              · exact hfsub o ho
          | none =>
            obtain ⟨hperm, hsub⟩ := ihs tc sol h
            exact ⟨hperm, fun o ho => List.mem_cons_of_mem _ (hsub o ho)⟩
    · rw [if_neg husable] at h
      obtain ⟨hperm, hsub⟩ := ihs tc sol h
      exact ⟨hperm, fun o ho => List.mem_cons_of_mem _ (hsub o ho)⟩

theorem coverF_sound :
    ∀ (fuel : Nat) (tc : List String) (options sol : List (List String)),
      coverF fuel tc options = .ok (some sol) →
      sol.flatten.Perm tc ∧ ∀ o ∈ sol, o ∈ options := by
  intro fuel
  induction fuel with
  | zero =>
    intro tc options sol h
    simp [coverF] at h
  | succ fuel ih =>
    intro tc options sol h
    rw [coverF] at h
    by_cases htc : tc.isEmpty
    · rw [if_pos htc] at h
      have hsol : sol = [] := by
        cases h
        rfl
      subst hsol
      have htc' : tc = [] := by simpa [List.isEmpty_iff] using htc
      subst htc'
      exact ⟨List.Perm.refl _, by simp⟩
    · rw [if_neg htc] at h
      exact coverGo_sound fuel ih options tc sol h

theorem coverGo_no_crash (fuel : Nat)
    (ihf : ∀ (tc : List String) (options : List (List String)),
      (∀ o ∈ options, o ≠ []) → (∀ o ∈ options, o.Nodup) → tc.length < fuel →
      ∃ r, coverF fuel tc options = .ok r) :
    ∀ (suffix : List (List String)) (tc : List String),
      (∀ o ∈ suffix, o ≠ []) → (∀ o ∈ suffix, o.Nodup) → tc.length < fuel + 1 →
      ∃ r, coverGo (coverF fuel) tc suffix = .ok r := by
  intro suffix
  induction suffix with
  | nil => intro tc _ _ _; exact ⟨Option.none, rfl⟩
  | cons option rest ihs =>
    intro tc hne hnd hlen
    rw [coverGo]
    by_cases husable : option.all (tc.contains ·) = true
    · rw [if_pos husable]
      have hmem : ∀ x ∈ option, x ∈ tc := by
        intro x hx
        have := List.all_eq_true.mp husable x hx
        simpa using this
      obtain ⟨left, hrem⟩ := removeItems_ok_of_nodup option tc
        (hnd option (List.mem_cons_self _ _)) hmem
      have hlperm := removeItems_ok_perm option tc left hrem
      have hlsum : option.length + left.length = tc.length := by
        have := hlperm.length_eq
        simpa using this
      have hopt1 : 1 ≤ option.length := by
        cases hoption : option with
        | nil => exact absurd hoption (hne option (List.mem_cons_self _ _))
        | cons a l => simp
      obtain ⟨r, hr⟩ := ihf left (option :: rest) hne hnd (by omega)
      cases r with
      | some found =>
        refine ⟨some (option :: found), ?_⟩
        simp only [hrem, hr]
      | none =>
        obtain ⟨r', hr'⟩ := ihs tc (fun o ho => hne o (List.mem_cons_of_mem _ ho))
          (fun o ho => hnd o (List.mem_cons_of_mem _ ho)) hlen
        refine ⟨r', ?_⟩
        simp only [hrem, hr]
        exact hr'
    · rw [if_neg husable]
      exact ihs tc (fun o ho => hne o (List.mem_cons_of_mem _ ho))
        (fun o ho => hnd o (List.mem_cons_of_mem _ ho)) hlen

theorem coverF_no_crash :
    ∀ (fuel : Nat) (tc : List String) (options : List (List String)),
      (∀ o ∈ options, o ≠ []) → (∀ o ∈ options, o.Nodup) → tc.length < fuel →
      ∃ r, coverF fuel tc options = .ok r := by
  intro fuel
  induction fuel with
  | zero => intro tc options _ _ hlen; omega
  | succ fuel ih =>
    intro tc options hne hnd hlen
    rw [coverF]
    by_cases htc : tc.isEmpty
    · rw [if_pos htc]
      exact ⟨some [], rfl⟩
    · rw [if_neg htc]
      exact coverGo_no_crash fuel ih options tc hne hnd hlen

theorem coverGo_complete (fuel : Nat)
    (ihf : ∀ (tc : List String) (options sol : List (List String)),
      (∀ o ∈ sol, o ∈ options) → sol.flatten.Perm tc →
      coverF fuel tc options ≠ .ok Option.none) :
    ∀ (suffix : List (List String)) (tc : List String) (sol : List (List String)),
      tc ≠ [] → (∀ o ∈ sol, o ∈ suffix) → sol.flatten.Perm tc →
      coverGo (coverF fuel) tc suffix ≠ .ok Option.none := by
  intro suffix
  induction suffix with
  | nil =>
    intro tc sol htc hsub hperm
    have hsol : sol = [] :=
      List.eq_nil_iff_forall_not_mem.mpr (fun o ho => by simpa using hsub o ho)
    subst hsol
    exact absurd hperm.symm.eq_nil htc
  | cons option rest ihs =>
    intro tc sol htc hsub hperm
    rw [coverGo]
    by_cases hopt : option ∈ sol
    · have husable : option.all (tc.contains ·) = true := by
        rw [List.all_eq_true]
        intro x hx
        have hj : x ∈ sol.flatten := List.mem_flatten.mpr ⟨option, hopt, hx⟩
        have : x ∈ tc := hperm.mem_iff.mp hj
        simpa using this
      rw [if_pos husable]
      cases hrem : removeItems tc option with
      | error e => simp [hrem]
      | ok left =>
        have hperm2 : (option ++ left).Perm tc := removeItems_ok_perm option tc left hrem
        obtain ⟨s, t, rfl⟩ := List.append_of_mem hopt
        have hpm : (s ++ option :: t).Perm (option :: (s ++ t)) := List.perm_middle
        have h2 : (s ++ option :: t).flatten.Perm (option ++ (s ++ t).flatten) := by
          have := hpm.flatten
          simpa using this
        have h3 : (option ++ (s ++ t).flatten).Perm (option ++ left) :=
          h2.symm.trans (hperm.trans hperm2.symm)
        have hperm3 : ((s ++ t).flatten).Perm left :=
          (List.perm_append_left_iff option).mp h3
        have hsub' : ∀ o ∈ s ++ t, o ∈ option :: rest := by
          intro o ho
          apply hsub
          rcases List.mem_append.mp ho with h' | h'
          · exact List.mem_append_left _ h'
          · exact List.mem_append_right _ (List.mem_cons_of_mem _ h')
        have hrec := ihf left (option :: rest) (s ++ t) hsub' hperm3
        cases hcf : coverF fuel left (option :: rest) with
        | error e => simp [hrem, hcf]
        | ok r =>
          cases r with
          | some found => simp [hrem, hcf]
          | none => exact absurd hcf hrec
    · have hsub' : ∀ o ∈ sol, o ∈ rest := by
        intro o ho
        rcases List.mem_cons.mp (hsub o ho) with h | h
        · exact absurd (h ▸ ho) hopt
        · exact h
      by_cases husable : option.all (tc.contains ·) = true
      · rw [if_pos husable]
        cases hrem : removeItems tc option with
        | error e => simp [hrem]
        | ok left =>
          cases hcf : coverF fuel left (option :: rest) with
          | error e => simp [hrem, hcf]
          | ok r =>
            cases r with
            | some found => simp [hrem, hcf]
            | none =>
              intro hgoal
              apply ihs tc sol htc hsub' hperm
              rw [← hgoal]
              simp only [hrem, hcf]
      · rw [if_neg husable]
        exact ihs tc sol htc hsub' hperm

theorem coverF_complete :
    ∀ (fuel : Nat) (tc : List String) (options sol : List (List String)),
      (∀ o ∈ sol, o ∈ options) → sol.flatten.Perm tc →
      coverF fuel tc options ≠ .ok Option.none := by
  intro fuel
  induction fuel with
  | zero =>
    intro tc options sol _ _
    simp [coverF]
  | succ fuel ih =>
    intro tc options sol hsub hperm
    rw [coverF]
    by_cases htc : tc.isEmpty
    · rw [if_pos htc]
      simp
    · rw [if_neg htc]
      have htc' : tc ≠ [] := by
        intro hc
        rw [hc] at htc
        exact htc rfl
      exact coverGo_complete fuel ih options tc sol htc' hsub hperm

theorem mergeMatchOrder_perm : ∀ (bs ms : List Nat),
    (mergeMatchOrder bs ms).Perm
      (bs.map (fun n => (true, n)) ++ ms.map (fun n => (false, n))) := by
  intro bs ms
  induction bs, ms using mergeMatchOrder.induct with
  | case1 => simp [mergeMatchOrder]
  | case2 m ms ih =>
    simp only [mergeMatchOrder, List.map_nil, List.nil_append, List.map_cons]
    exact ih.cons _
  | case3 b bs ih =>
    simp only [mergeMatchOrder, List.map_nil, List.append_nil, List.map_cons] at ih ⊢
    exact ih.cons _
  | case4 b bs m ms hlt ih =>
    rw [mergeMatchOrder, if_pos hlt]
    refine (ih.cons (false, m)).trans ?_
    exact List.perm_middle.symm
  | case5 b bs m ms hlt ih =>
    rw [mergeMatchOrder, if_neg hlt]
    simpa using ih.cons (true, b)

theorem mem_snd_mergeMatchOrder {x : Nat} {bs ms : List Nat}
    (h : x ∈ (mergeMatchOrder bs ms).map Prod.snd) : x ∈ bs ∨ x ∈ ms := by
  have hp := (mergeMatchOrder_perm bs ms).map Prod.snd
  rw [hp.mem_iff] at h
  simpa using h

theorem mergeMatchOrder_sorted (bs ms : List Nat) : List.Sorted (· ≤ ·) bs →
    List.Sorted (· ≤ ·) ms →
    List.Sorted (· ≤ ·) ((mergeMatchOrder bs ms).map Prod.snd) := by
  induction bs, ms using mergeMatchOrder.induct with
  | case1 => intro _ _; simp [mergeMatchOrder]
  | case2 m ms ih =>
    intro hb hm
    rw [mergeMatchOrder, List.map_cons, List.sorted_cons]
    refine ⟨fun x hx => ?_, ih hb (List.sorted_cons.mp hm).2⟩
    rcases mem_snd_mergeMatchOrder hx with h | h
    · simp at h
    · exact (List.sorted_cons.mp hm).1 x h
  | case3 b bs ih =>
    intro hb hm
    rw [mergeMatchOrder, List.map_cons, List.sorted_cons]
    refine ⟨fun x hx => ?_, ih (List.sorted_cons.mp hb).2 hm⟩
    rcases mem_snd_mergeMatchOrder hx with h | h
    · exact (List.sorted_cons.mp hb).1 x h
    · simp at h
  | case4 b bs m ms hlt ih =>
    intro hb hm
    rw [mergeMatchOrder, if_pos hlt, List.map_cons, List.sorted_cons]
    refine ⟨fun x hx => ?_, ih hb (List.sorted_cons.mp hm).2⟩
    rcases mem_snd_mergeMatchOrder hx with h | h
    · rcases List.mem_cons.mp h with rfl | h
      · exact Nat.le_of_lt hlt
      · exact Nat.le_trans (Nat.le_of_lt hlt) ((List.sorted_cons.mp hb).1 x h)
    · exact (List.sorted_cons.mp hm).1 x h
  | case5 b bs m ms hlt ih =>
    intro hb hm
    rw [mergeMatchOrder, if_neg hlt, List.map_cons, List.sorted_cons]
    refine ⟨fun x hx => ?_, ih (List.sorted_cons.mp hb).2 hm⟩
    have hbm : b ≤ m := Nat.le_of_not_lt hlt
    rcases mem_snd_mergeMatchOrder hx with h | h
    · exact (List.sorted_cons.mp hb).1 x h
    · rcases List.mem_cons.mp h with rfl | h
      · exact hbm
      · exact Nat.le_trans hbm ((List.sorted_cons.mp hm).1 x h)

theorem hasNode_iff (m : Molecule) (a : Nat) : m.hasNode a = true ↔ a ∈ m.keys := by
  simp [Molecule.hasNode]

theorem lookup_cons_ne {α β : Type} [BEq α] [LawfulBEq α] (k : α) (v : β)
    (l : List (α × β)) (a : α) (h : a ≠ k) :
    List.lookup a ((k, v) :: l) = List.lookup a l := by
  simp [List.lookup, beq_eq_false_iff_ne.mpr h]

theorem lookup_cons_self {α β : Type} [BEq α] [LawfulBEq α] (k : α) (v : β)
    (l : List (α × β)) : List.lookup k ((k, v) :: l) = some v := by
  simp [List.lookup]

theorem lookup_of_mem_keys {β : Type} :
    ∀ (l : List (Nat × β)) (k : Nat), k ∈ l.map Prod.fst → ∃ p, l.lookup k = some p := by
  intro l
  induction l with
  | nil => intro k hk; simp at hk
  | cons kv rest ih =>
    intro k hk
    by_cases h : k = kv.1
    · subst h
      exact ⟨kv.2, lookup_cons_self _ _ _⟩
    · rw [List.map_cons] at hk
      rcases List.mem_cons.mp hk with h' | h'
      · exact absurd h' h
      · obtain ⟨p, hp⟩ := ih k h'
        exact ⟨p, by rw [← Prod.mk.eta (p := kv), lookup_cons_ne _ _ _ _ h, hp]⟩

theorem foldl_max_le (ks : List Nat) (k : Nat) :
    k ≤ ks.foldl Nat.max k ∧ ∀ x ∈ ks, x ≤ ks.foldl Nat.max k := by
  induction ks generalizing k with
  | nil => exact ⟨Nat.le_refl k, by simp⟩
  | cons a ks ih =>
    obtain ⟨h1, h2⟩ := ih (Nat.max k a)
    refine ⟨Nat.le_trans (Nat.le_max_left k a) h1, fun x hx => ?_⟩
    rcases List.mem_cons.mp hx with rfl | hx
    · exact Nat.le_trans (Nat.le_max_right k x) h1
    · exact h2 x hx

theorem foldl_max_mem (ks : List Nat) (k : Nat) :
    ks.foldl Nat.max k = k ∨ ks.foldl Nat.max k ∈ ks := by
  induction ks generalizing k with
  | nil => exact Or.inl rfl
  | cons a ks ih =>
    rcases ih (Nat.max k a) with h | h
    · have hk : Nat.max k a = k ∨ Nat.max k a = a := by
        rcases Nat.le_total k a with hle | hle
        · exact Or.inr (Nat.max_eq_right hle)
        · exact Or.inl (Nat.max_eq_left hle)
      rcases hk with hk | hk
      · exact Or.inl (by rw [List.foldl_cons, h, hk])
      · exact Or.inr (by rw [List.foldl_cons, h, hk]; exact List.mem_cons_self a ks)
    · exact Or.inr (List.mem_cons_of_mem a h)

theorem maxKey_le {m : Molecule} {M : Nat} (h : Molecule.maxKey m = some M) :
    ∀ k ∈ m.keys, k ≤ M := by
  unfold Molecule.maxKey at h
  intro k hk
  cases hks : m.keys with
  | nil => rw [hks] at hk; simp at hk
  | cons k0 ks =>
    rw [hks] at h hk
    simp only [Option.some.injEq] at h
    subst h
    rcases List.mem_cons.mp hk with rfl | hk
    · exact (foldl_max_le ks k).1
    · exact (foldl_max_le ks k0).2 k hk

theorem maxKey_mem {m : Molecule} {M : Nat} (h : Molecule.maxKey m = some M) :
    M ∈ m.keys := by
  unfold Molecule.maxKey at h
  cases hks : m.keys with
  | nil => rw [hks] at h; simp at h
  | cons k0 ks =>
    rw [hks] at h
    simp only [Option.some.injEq] at h
    subst h
    rcases foldl_max_mem ks k0 with h | h
    · rw [h]; exact List.mem_cons_self k0 ks
    · exact List.mem_cons_of_mem k0 h

theorem addNode_fresh (m : Molecule) (kp : Nat × Particle)
    (h : m.hasNode kp.1 = false) :
    Molecule.addNode m kp.1 kp.2 = { m with nodes := m.nodes ++ [kp] } := by
  unfold Molecule.addNode
  rw [h]
  rfl

theorem foldl_addNode_fresh :
    ∀ (L : List (Nat × Particle)) (m : Molecule),
    (∀ kp ∈ L, ∀ k' ∈ m.keys, k' < kp.1) →
    List.Pairwise (fun a b : Nat × Particle => a.1 < b.1) L →
    L.foldl (fun st kp => Molecule.addNode st kp.1 kp.2) m
      = { m with nodes := m.nodes ++ L } := by
  intro L
  induction L with
  | nil => intro m _ _; simp
  | cons kp L ih =>
    intro m hfresh hpw
    have hnot : m.hasNode kp.1 = false := by
      cases h : m.hasNode kp.1
      · rfl
      · have := hfresh kp (List.mem_cons_self kp L) kp.1 ((hasNode_iff m kp.1).mp h)
        omega
    rw [List.foldl_cons, addNode_fresh m kp hnot, ih _ ?_ hpw.of_cons]
    · simp
    · intro kq hq k' hk'
      simp only [Molecule.keys, List.map_append] at hk'
      rcases List.mem_append.mp hk' with h' | h'
      · exact hfresh kq (List.mem_cons_of_mem kp hq) k' h'
      · simp only [List.map_cons, List.map_nil, List.mem_singleton] at h'
        subst h'
        exact (List.pairwise_cons.mp hpw).1 kq hq

theorem enumerateFrom_length {α : Type} :
    ∀ (l : List α) (s : Nat), (enumerateFrom s l).length = l.length := by
  intro l
  induction l with
  | nil => intro s; rfl
  | cons a l ih => intro s; simp [enumerateFrom, ih]

theorem enumerateFrom_fst_bounds {α : Type} :
    ∀ (l : List α) (s : Nat) (kp : Nat × α), kp ∈ enumerateFrom s l →
      s ≤ kp.1 ∧ kp.1 < s + l.length := by
  intro l
  induction l with
  | nil => intro s kp h; simp [enumerateFrom] at h
  | cons a l ih =>
    intro s kp h
    rw [enumerateFrom] at h
    rcases List.mem_cons.mp h with rfl | h
    · simp
    · have := ih (s + 1) kp h
      exact ⟨by omega, by simp only [List.length_cons]; omega⟩

theorem enumerateFrom_fst_pairwise {α : Type} :
    ∀ (l : List α) (s : Nat),
      List.Pairwise (fun a b : Nat × α => a.1 < b.1) (enumerateFrom s l) := by
  intro l
  induction l with
  | nil => intro s; exact List.Pairwise.nil
  | cons a l ih =>
    intro s
    refine List.pairwise_cons.mpr ⟨fun kp hkp => ?_, ih (s + 1)⟩
    have := (enumerateFrom_fst_bounds l (s + 1) kp hkp).1
    omega

theorem enumerateFrom_mem_fst {α : Type} :
    ∀ (l : List α) (s j : Nat), j < l.length →
      (s + j) ∈ (enumerateFrom s l).map Prod.fst := by
  intro l
  induction l with
  | nil => intro s j h; simp at h
  | cons a l ih =>
    intro s j h
    cases j with
    | zero => rw [enumerateFrom]; simp
    | succ j =>
      have := ih (s + 1) j (by simpa [Nat.succ_lt_succ_iff] using h)
      simp only [enumerateFrom, List.map_cons, List.mem_cons]
      right
      have heq : s + (j + 1) = (s + 1) + j := by omega
      rw [heq]
      exact this

theorem mergeNewNodes_fst (off : Nat) (ro cg : Int) (nodes : List (Nat × Particle)) :
    (Molecule.mergeNewNodes off ro cg nodes).map Prod.fst
      = (enumerateFrom off nodes).map Prod.fst := by
  unfold Molecule.mergeNewNodes
  rw [List.map_map]
  rfl

theorem interactionsLookup_cons_ne (s : String) (l : List Interaction)
    (rest : List (String × List Interaction)) (t' : String) (h : t' ≠ s) :
    interactionsLookup ((s, l) :: rest) t' = interactionsLookup rest t' := by
  unfold interactionsLookup
  rw [lookup_cons_ne _ _ _ _ h]

theorem interactionsLookup_cons_self (s : String) (l : List Interaction)
    (rest : List (String × List Interaction)) :
    interactionsLookup ((s, l) :: rest) s = l := by
  unfold interactionsLookup
  rw [lookup_cons_self]

theorem interactionsLookup_append (ints : List (String × List Interaction))
    (t : String) (iNew : Interaction) (t' : String) :
    interactionsLookup (Molecule.interactionsAppend ints t iNew) t'
      = if t' = t then interactionsLookup ints t' ++ [iNew]
        else interactionsLookup ints t' := by
  induction ints with
  | nil =>
    by_cases h : t' = t
    · subst h
      rw [if_pos rfl]
      show interactionsLookup [(t', [iNew])] t' = interactionsLookup [] t' ++ [iNew]
      rw [interactionsLookup_cons_self]
      rfl
    · rw [if_neg h]
      show interactionsLookup [(t, [iNew])] t' = interactionsLookup [] t'
      rw [interactionsLookup_cons_ne _ _ _ _ h]
  | cons hd rest ih =>
    obtain ⟨s, l⟩ := hd
    simp only [Molecule.interactionsAppend]
    by_cases hst : s = t
    · subst hst
      rw [if_pos rfl]
      by_cases h : t' = s
      · subst h
        rw [if_pos rfl, interactionsLookup_cons_self, interactionsLookup_cons_self]
      · rw [if_neg h, interactionsLookup_cons_ne _ _ _ _ h,
          interactionsLookup_cons_ne _ _ _ _ h]
    · rw [if_neg hst]
      by_cases h : t' = s
      · subst h
        rw [if_neg hst, interactionsLookup_cons_self, interactionsLookup_cons_self]
      · rw [interactionsLookup_cons_ne _ _ _ _ h, interactionsLookup_cons_ne _ _ _ _ h,
          ih]

theorem mergeCorrespondence_cons (offset : Nat) (kv : Nat × Particle)
    (rest : List (Nat × Particle)) :
    Molecule.mergeCorrespondence offset (kv :: rest)
      = (kv.1, offset) :: Molecule.mergeCorrespondence (offset + 1) rest := rfl

theorem mergeCorrespondence_lookup :
    ∀ (nodes : List (Nat × Particle)) (offset j : Nat),
      (nodes.map Prod.fst).Nodup → ∀ (hj : j < nodes.length),
      Molecule.corrLookup (Molecule.mergeCorrespondence offset nodes)
          ((nodes.get ⟨j, hj⟩).1)
        = some (offset + j) := by
  intro nodes
  induction nodes with
  | nil => intro offset j _ hj; simp at hj
  | cons kv rest ih =>
    intro offset j hnd hj
    cases j with
    | zero =>
      show Molecule.corrLookup (Molecule.mergeCorrespondence offset (kv :: rest)) kv.1 = _
      rw [mergeCorrespondence_cons]
      unfold Molecule.corrLookup
      rw [lookup_cons_self, Nat.add_zero]
    | succ j =>
      have hj' : j < rest.length := by simpa [Nat.succ_lt_succ_iff] using hj
      have hkey : ((kv :: rest).get ⟨j + 1, hj⟩) = rest.get ⟨j, hj'⟩ := rfl
      rw [hkey]
      have hmem : (rest.get ⟨j, hj'⟩).1 ∈ rest.map Prod.fst :=
        List.mem_map_of_mem Prod.fst (rest.get_mem j hj')
      have hne : (rest.get ⟨j, hj'⟩).1 ≠ kv.1 := by
        intro hc
        rw [List.map_cons] at hnd
        have := (List.pairwise_cons.mp hnd).1 _ hmem
        exact this hc.symm
      rw [mergeCorrespondence_cons]
      unfold Molecule.corrLookup
      rw [lookup_cons_ne _ _ _ _ hne]
      have := ih (offset + 1) j (by rw [List.map_cons] at hnd; exact hnd.of_cons) hj'
      unfold Molecule.corrLookup at this
      rw [this]
      congr 1
      omega

theorem ensureNode_edges (b : Block) (n : String) : (b.ensureNode n).edges = b.edges := by
  unfold Block.ensureNode
  split <;> rfl

theorem ensureNode_interactions (b : Block) (n : String) :
    (b.ensureNode n).interactions = b.interactions := by
  unfold Block.ensureNode
  split <;> rfl

theorem hasEdge_ensureNode (b : Block) (n u v : String) :
    (b.ensureNode n).hasEdge u v = b.hasEdge u v := by
  unfold Block.hasEdge
  rw [ensureNode_edges]

theorem hasEdge_swap (b : Block) (u v : String) : b.hasEdge u v = b.hasEdge v u := by
  unfold Block.hasEdge
  congr 1
  funext e
  exact Bool.or_comm _ _

theorem addEdge_interactions (b : Block) (x y : String) :
    (b.addEdge x y).interactions = b.interactions := by
  unfold Block.addEdge Block.addEdgeIfAbsent
  split <;> simp [ensureNode_interactions]

theorem hasEdge_addEdge (b : Block) (x y u v : String) :
    (b.addEdge x y).hasEdge u v = (b.hasEdge u v || pairMatchB x y u v) := by
  unfold Block.addEdge Block.addEdgeIfAbsent
  split
  · next h =>
    rw [hasEdge_ensureNode, hasEdge_ensureNode] at h ⊢
    cases hp : pairMatchB x y u v
    · simp
    · have huv : b.hasEdge u v = true := by
        rcases Bool.or_eq_true_iff.mp hp with hc | hc
        · obtain ⟨h1, h2⟩ := Bool.and_eq_true_iff.mp hc
          rw [← eq_of_beq h1, ← eq_of_beq h2]
          exact h
        · obtain ⟨h1, h2⟩ := Bool.and_eq_true_iff.mp hc
          rw [← eq_of_beq h1, ← eq_of_beq h2, hasEdge_swap]
          exact h
      simp [huv]
  · next h =>
    show Block.hasEdge _ u v = _
    unfold Block.hasEdge
    show (((b.ensureNode x).ensureNode y).edges ++ [(x, y)]).any _ = _
    rw [List.any_append, ensureNode_edges, ensureNode_edges]
    simp [pairMatchB]

theorem hasEdge_foldAddEdges (ps : List (String × String)) (b : Block) (u v : String) :
    ((ps.foldl (fun acc p => acc.addEdge p.1 p.2) b).hasEdge u v)
      = (b.hasEdge u v || ps.any (fun p => pairMatchB p.1 p.2 u v)) := by
  induction ps generalizing b with
  | nil => simp
  | cons p ps ih =>
    rw [List.foldl_cons, ih, hasEdge_addEdge, List.any_cons, Bool.or_assoc]

theorem foldAddEdges_interactions (ps : List (String × String)) (b : Block) :
    (ps.foldl (fun acc p => acc.addEdge p.1 p.2) b).interactions = b.interactions := by
  induction ps generalizing b with
  | nil => rfl
  | cons p ps ih => rw [List.foldl_cons, ih, addEdge_interactions]

theorem hasEdge_foldInteractions (il : List BInteraction) (b : Block) (u v : String) :
    ((il.foldl
        (fun acc i =>
          if Block.edgeEnabled i then
            (Block.consecutivePairs i.atoms).foldl (fun acc2 p => acc2.addEdge p.1 p.2) acc
          else acc) b).hasEdge u v)
      = (b.hasEdge u v
          || il.any fun i => Block.edgeEnabled i
              && (Block.consecutivePairs i.atoms).any fun p => pairMatchB p.1 p.2 u v) := by
  induction il generalizing b with
  | nil => simp
  | cons i il ih =>
    rw [List.foldl_cons]
    by_cases h : Block.edgeEnabled i
    · rw [if_pos h, ih, hasEdge_foldAddEdges, List.any_cons, h, Bool.true_and,
        Bool.or_assoc]
    · rw [if_neg h, ih, List.any_cons, Bool.eq_false_iff.mpr h, Bool.false_and,
        Bool.false_or]

theorem foldInteractions_interactions (il : List BInteraction) (b : Block) :
    (il.foldl
        (fun acc i =>
          if Block.edgeEnabled i then
            (Block.consecutivePairs i.atoms).foldl (fun acc2 p => acc2.addEdge p.1 p.2) acc
          else acc) b).interactions = b.interactions := by
  induction il generalizing b with
  | nil => rfl
  | cons i il ih =>
    rw [List.foldl_cons]
    by_cases h : Block.edgeEnabled i
    · rw [if_pos h, ih, foldAddEdges_interactions]
    · rw [if_neg h, ih]

theorem hasEdge_make_edges_aux (ts : List String) (b0 : Block) (u v : String) :
    ∀ acc : Block, acc.interactions = b0.interactions →
    ((ts.foldl (fun a t => a.make_edges_from_interaction_type t) acc).hasEdge u v)
      = (acc.hasEdge u v
          || ts.any fun t => (b0.interactionsGet t).any fun i =>
              Block.edgeEnabled i
                && (Block.consecutivePairs i.atoms).any fun p => pairMatchB p.1 p.2 u v) := by
  induction ts with
  | nil => intro acc _; simp
  | cons t ts ih =>
    intro acc hacc
    rw [List.foldl_cons]
    have hget : acc.interactionsGet t = b0.interactionsGet t := by
      unfold Block.interactionsGet
      rw [hacc]
    have hint : (acc.make_edges_from_interaction_type t).interactions = b0.interactions := by
      unfold Block.make_edges_from_interaction_type
      rw [foldInteractions_interactions, hacc]
    rw [ih _ hint]
    show ((acc.make_edges_from_interaction_type t).hasEdge u v || _) = _
    unfold Block.make_edges_from_interaction_type
    rw [hasEdge_foldInteractions, hget, List.any_cons, Bool.or_assoc]

theorem mapM_eq_some_map {α β : Type} (f : α → Option β) (g : α → β) :
    ∀ (l : List α), (∀ a ∈ l, f a = some (g a)) → l.mapM f = some (l.map g) := by
  intro l
  induction l with
  | nil => intro _; rfl
  | cons a l ih =>
    intro h
    rw [List.mapM_cons, h a (List.mem_cons_self a l),
      ih (fun x hx => h x (List.mem_cons_of_mem a hx))]
    rfl

theorem add_interaction_ok (m : Molecule) (t : String) (atoms : List Nat)
    (p : List PyVal) (meta : Attrs) (h : ∀ a ∈ atoms, m.hasNode a = true) :
    m.add_interaction t atoms p meta
      = ({ m with interactions :=
            Molecule.interactionsAppend m.interactions t ⟨atoms, p, meta⟩ },
          Option.none) := by
  unfold Molecule.add_interaction
  rw [List.find?_eq_none.mpr]
  · intro a ha
    simp [h a ha]

theorem addEdgeN_nodes (m : Molecule) (u v : Nat) :
    (Molecule.addEdge m u v).nodes = m.nodes := by
  unfold Molecule.addEdge
  split <;> rfl

theorem addEdgeN_interactions (m : Molecule) (u v : Nat) :
    (Molecule.addEdge m u v).interactions = m.interactions := by
  unfold Molecule.addEdge
  split <;> rfl

theorem hasEdgeN_swap (m : Molecule) (u v : Nat) : m.hasEdgeN u v = m.hasEdgeN v u := by
  unfold Molecule.hasEdgeN
  congr 1
  funext e
  exact Bool.or_comm _ _

theorem hasEdgeN_addEdgeN (m : Molecule) (x y u v : Nat) :
    (Molecule.addEdge m x y).hasEdgeN u v = (m.hasEdgeN u v || pairMatchN x y u v) := by
  unfold Molecule.addEdge
  split
  · next h =>
    cases hp : pairMatchN x y u v
    · simp
    · have huv : m.hasEdgeN u v = true := by
        rcases Bool.or_eq_true_iff.mp hp with hc | hc
        · obtain ⟨h1, h2⟩ := Bool.and_eq_true_iff.mp hc
          rw [← eq_of_beq h1, ← eq_of_beq h2]
          exact h
        · obtain ⟨h1, h2⟩ := Bool.and_eq_true_iff.mp hc
          rw [← eq_of_beq h1, ← eq_of_beq h2, hasEdgeN_swap]
          exact h
      simp [huv]
  · next h =>
    show Molecule.hasEdgeN _ u v = _
    unfold Molecule.hasEdgeN
    show (m.edges ++ [(x, y)]).any _ = _
    rw [List.any_append]
    simp [pairMatchN]

theorem hasNode_congr {m m' : Molecule} (h : m.nodes = m'.nodes) (a : Nat) :
    m.hasNode a = m'.hasNode a := by
  unfold Molecule.hasNode Molecule.keys
  rw [h]

theorem mergeEdges_spec (corr : List (Nat × Nat)) (offset : Nat) :
    ∀ (edges : List (Nat × Nat)) (st : Molecule),
    (∀ e ∈ edges, Molecule.corrLookup corr e.1 = some (offset + e.1)
        ∧ Molecule.corrLookup corr e.2 = some (offset + e.2)) →
    ∃ st', Molecule.mergeEdges corr st edges = (st', Option.none)
      ∧ st'.nodes = st.nodes
      ∧ st'.interactions = st.interactions
      ∧ (∀ u v, st.hasEdgeN u v = true → st'.hasEdgeN u v = true)
      ∧ (∀ e ∈ edges, st'.hasEdgeN (offset + e.1) (offset + e.2) = true) := by
  intro edges
  induction edges with
  | nil =>
    intro st _
    exact ⟨st, rfl, rfl, rfl, fun _ _ h => h, by simp⟩
  | cons e rest ih =>
    intro st h
    obtain ⟨h1, h2⟩ := h e (List.mem_cons_self e rest)
    obtain ⟨u, v⟩ := e
    obtain ⟨st', heq, hn, hi, hmono, hall⟩ :=
      ih (Molecule.addEdge st (offset + u) (offset + v))
        (fun e' he' => h e' (List.mem_cons_of_mem _ he'))
    refine ⟨st', ?_, ?_, ?_, ?_, ?_⟩
    · rw [Molecule.mergeEdges, h1, h2]
      exact heq
    · rw [hn, addEdgeN_nodes]
    · rw [hi, addEdgeN_interactions]
    · intro a b hab
      apply hmono
      rw [hasEdgeN_addEdgeN, hab]
      rfl
    · intro e' he'
      rcases List.mem_cons.mp he' with rfl | he'
    -- the freshly added edge, then the rest
      · apply hmono
        rw [hasEdgeN_addEdgeN]
        simp [pairMatchN]
      · exact hall e' he'

theorem addInteractionsOf_spec (corr : List (Nat × Nat)) (offset : Nat) (t : String) :
    ∀ (il : List Interaction) (st : Molecule),
    (∀ i ∈ il, ∀ a ∈ i.atoms, Molecule.corrLookup corr a = some (offset + a)
        ∧ st.hasNode (offset + a) = true) →
    ∃ st', Molecule.addInteractionsOf corr st t il = (st', Option.none)
      ∧ st'.nodes = st.nodes ∧ st'.edges = st.edges
      ∧ (∀ t' j, j ∈ st.interactionsGet t' → j ∈ st'.interactionsGet t')
      ∧ (∀ i ∈ il, Molecule.shiftInteraction offset i ∈ st'.interactionsGet t) := by
  intro il
  induction il with
  | nil =>
    intro st _
    exact ⟨st, rfl, rfl, rfl, fun _ _ hj => hj, by simp⟩
  | cons i rest ih =>
    intro st h
    have hcor : ∀ a ∈ i.atoms, Molecule.corrLookup corr a = some (offset + a) :=
      fun a ha => (h i (List.mem_cons_self i rest) a ha).1
    have hmapM : i.atoms.mapM (Molecule.corrLookup corr)
        = some (i.atoms.map (fun a => offset + a)) :=
      mapM_eq_some_map _ _ _ hcor
    have hnodes : ∀ a' ∈ i.atoms.map (fun a => offset + a), st.hasNode a' = true := by
      intro a' ha'
      obtain ⟨a, ha, rfl⟩ := List.mem_map.mp ha'
      exact (h i (List.mem_cons_self i rest) a ha).2
    obtain ⟨st', heq, hn, he, hmono, hall⟩ :=
      ih { st with interactions := Molecule.interactionsAppend st.interactions t (Interaction.mk (i.atoms.map (fun a => offset + a)) i.parameters i.meta) }
        (fun i' hi' a ha =>
          ⟨(h i' (List.mem_cons_of_mem i hi') a ha).1,
           (h i' (List.mem_cons_of_mem i hi') a ha).2⟩)
    refine ⟨st', ?_, by rw [hn], by rw [he], ?_, ?_⟩
    · simp only [Molecule.addInteractionsOf, hmapM,
        add_interaction_ok st t _ i.parameters i.meta hnodes]
      exact heq
    · intro t' j hj
      apply hmono
      show j ∈ interactionsLookup
        (Molecule.interactionsAppend st.interactions t
          ⟨i.atoms.map (fun a => offset + a), i.parameters, i.meta⟩) t'
      rw [interactionsLookup_append]
      split
      · exact List.mem_append_left _ hj
      · exact hj
    · intro i' hi'
      rcases List.mem_cons.mp hi' with rfl | hi'
      · apply hmono
        show Molecule.shiftInteraction offset i' ∈ interactionsLookup
          (Molecule.interactionsAppend st.interactions t
            ⟨i'.atoms.map (fun a => offset + a), i'.parameters, i'.meta⟩) t
        rw [interactionsLookup_append, if_pos rfl]
        exact List.mem_append_right _ (by simp [Molecule.shiftInteraction])
      · exact hall i' hi'

theorem mergeInteractions_spec (corr : List (Nat × Nat)) (offset : Nat) :
    ∀ (ints : List (String × List Interaction)) (st : Molecule),
    (∀ tl ∈ ints, ∀ i ∈ tl.2, ∀ a ∈ i.atoms,
        Molecule.corrLookup corr a = some (offset + a)
          ∧ st.hasNode (offset + a) = true) →
    ∃ st', Molecule.mergeInteractions corr st ints = (st', Option.none)
      ∧ st'.nodes = st.nodes ∧ st'.edges = st.edges
      ∧ (∀ t' j, j ∈ st.interactionsGet t' → j ∈ st'.interactionsGet t')
      ∧ (∀ tl ∈ ints, ∀ i ∈ tl.2,
          Molecule.shiftInteraction offset i ∈ st'.interactionsGet tl.1) := by
  intro ints
  induction ints with
  | nil =>
    intro st _
    exact ⟨st, rfl, rfl, rfl, fun _ _ hj => hj, by simp⟩
  | cons tl rest ih =>
    intro st h
    obtain ⟨t, il⟩ := tl
    obtain ⟨st1, heq1, hn1, he1, hmono1, hall1⟩ :=
      addInteractionsOf_spec corr offset t il st
        (fun i hi a ha => h (t, il) (List.mem_cons_self _ rest) i hi a ha)
    obtain ⟨st', heq, hn, he, hmono, hall⟩ :=
      ih st1
        (fun tl' htl' i hi a ha =>
          ⟨(h tl' (List.mem_cons_of_mem _ htl') i hi a ha).1,
           by rw [hasNode_congr hn1]
              exact (h tl' (List.mem_cons_of_mem _ htl') i hi a ha).2⟩)
    refine ⟨st', ?_, by rw [hn, hn1], by rw [he, he1], ?_, ?_⟩
    · rw [Molecule.mergeInteractions, heq1]
      exact heq
    · intro t' j hj
      exact hmono t' j (hmono1 t' j hj)
    · intro tl' htl' i hi
      rcases List.mem_cons.mp htl' with rfl | htl'
      · exact hmono _ _ (hall1 i hi)
      · exact hall tl' htl' i hi

/-! Claim theorems. -/

/-- C7: `attributes_match` is a pure conjunction over the non-ignored keys of
`template_attributes`: if a match succeeds, it still succeeds after removing
every binding of any single key `k` from the template, and a key of `attrs`
not constrained by the template (here shadowed in front of `attrs`) never
affects the result. -/
theorem attributes_match_conjunction (attrs : Attrs) (template : List (String × TVal))
    (ignore_keys : List String) (k : String) (v : PyVal) :
    (attributes_match attrs template ignore_keys = true →
      attributes_match attrs (template.filter fun kv => kv.1 != k) ignore_keys = true)
    ∧ (k ∉ template.map Prod.fst →
      attributes_match ((k, v) :: attrs) template ignore_keys
        = attributes_match attrs template ignore_keys) := by
  constructor
  · intro h
    rw [attributes_match, List.all_eq_true] at h ⊢
    intro kv hkv
    exact h kv (List.mem_of_mem_filter hkv)
  · intro hk
    induction template with
    | nil => rfl
    | cons kv rest ih =>
      simp only [List.map_cons, List.mem_cons, not_or] at hk
      simp only [attributes_match, List.all_cons] at ih ⊢
      rw [ih hk.2, tvalMatch_shadow_ne v attrs kv.2 (Ne.symm hk.1)]

/-- Witness for C7 at a concrete input. -/
theorem attributes_match_conjunction_witness :
    attributes_match [("a", PyVal.int 1)]
        (([("a", TVal.plain (PyVal.int 1)),
           ("b", TVal.notDefinedOrNot (PyVal.int 2))]).filter fun kv => kv.1 != "b")
        [] = true
    ∧ attributes_match [("c", PyVal.int 5), ("a", PyVal.int 1)]
        [("a", TVal.plain (PyVal.int 1))] []
      = attributes_match [("a", PyVal.int 1)] [("a", TVal.plain (PyVal.int 1))] [] :=
  ⟨(attributes_match_conjunction [("a", PyVal.int 1)]
      [("a", TVal.plain (PyVal.int 1)), ("b", TVal.notDefinedOrNot (PyVal.int 2))]
      [] "b" (PyVal.int 0)).1 (by decide),
   (attributes_match_conjunction [("a", PyVal.int 1)]
      [("a", TVal.plain (PyVal.int 1))] [] "c" (PyVal.int 5)).2 (by decide)⟩

/-- C5: evaluating `remove_interaction` at its failing inputs. The stored
condition tests the *truthiness* of `meta.get('version', 0)` instead of
comparing it to the requested version, so removing a version-0 interaction
whose atoms match raises `KeyError`, while requesting version 0 removes a
stored version-1 interaction. -/
theorem remove_interaction_ignores_version :
    Molecule.remove_interaction exMolC5 "bonds" [0, 1] 0
      = Except.error "KeyError: no interaction of type 0"
    ∧ Molecule.remove_interaction exMolC5v "bonds" [0, 1] 0
      = Except.ok { exMolC5v with interactions := [("bonds", [])] } := by
  constructor <;> rfl

/-- C10: `add_interaction` raises exactly when some atom is not a node, a
raise leaves the molecule unchanged, and a successful call preserves the
invariant that every stored interaction references only existing atoms. -/
theorem add_interaction_spec (m : Molecule) (t : String) (atoms : List Nat)
    (params : List PyVal) (meta : Attrs) :
    ((m.add_interaction t atoms params meta).2.isSome
        ↔ ∃ a ∈ atoms, m.hasNode a = false)
    ∧ ((m.add_interaction t atoms params meta).2.isSome
        → (m.add_interaction t atoms params meta).1 = m)
    ∧ (m.interactionAtomsValid → (m.add_interaction t atoms params meta).2 = Option.none
        → (m.add_interaction t atoms params meta).1.interactionAtomsValid) := by
  unfold Molecule.add_interaction
  cases hf : atoms.find? (fun a => !m.hasNode a) with
  | some a =>
    refine ⟨⟨fun _ => ?_, fun _ => rfl⟩, fun _ => rfl, fun _ h => by simp at h⟩
    refine ⟨a, List.mem_of_find?_eq_some hf, ?_⟩
    have := List.find?_some hf
    simpa using this
  | none =>
    rw [List.find?_eq_none] at hf
    refine ⟨⟨fun h => by simp at h, fun h => ?_⟩, fun h => by simp at h, fun hinv _ => ?_⟩
    · obtain ⟨a, ha, hnot⟩ := h
      have := hf a ha
      simp [hnot] at this
    · intro tl htl j hj a haj
      have hmem := interactionsAppend_mem m.interactions t ⟨atoms, params, meta⟩ tl htl j hj
      show m.hasNode a = true
      rcases hmem with ⟨tl', htl', hjtl'⟩ | hnew
      · exact hinv tl' htl' j hjtl' a haj
      · subst hnew
        have := hf a haj
        simpa using this

/-- Witness for C10 at a concrete input. -/
theorem add_interaction_spec_witness :
    (exMolC5.add_interaction "angles" [0, 1] [] []).1.interactionAtomsValid :=
  (add_interaction_spec exMolC5 "angles" [0, 1] [] []).2.2 (by decide) (by rfl)

/-- C9: merging with a mismatched force field identity or a mismatched
`nrexcl` always raises and leaves the receiver completely unmodified. -/
theorem merge_molecule_mismatch (m1 m2 : Molecule)
    (h : m1.forceField ≠ m2.forceField ∨ m1.nrexcl ≠ m2.nrexcl) :
    (m1.merge_molecule m2).error.isSome = true
    ∧ (m1.merge_molecule m2).state = m1 := by
  unfold Molecule.merge_molecule
  by_cases hff : m1.forceField ≠ m2.forceField
  · simp [hff]
  · have hnr : m1.nrexcl ≠ m2.nrexcl := by tauto
    simp [hff, hnr]

/-- Witness for C9 at a concrete input. -/
theorem merge_molecule_mismatch_witness :
    (exM1.merge_molecule { exM1 with nrexcl := some 1 }).error.isSome = true
    ∧ (exM1.merge_molecule { exM1 with nrexcl := some 1 }).state = exM1 :=
  merge_molecule_mismatch exM1 { exM1 with nrexcl := some 1 } (by decide)

/-- C1: evaluating a successful merge of two compatible molecules. The
function body of `merge_molecule` has no `return` statement, so it returns
Python's `None` — not the correspondence dictionary it builds (here
`{0: 1}`), which its caller `apply_block_mapping` immediately subscripts. -/
theorem merge_molecule_returns_none :
    (exM1.merge_molecule exM1).error = Option.none
    ∧ (exM1.merge_molecule exM1).correspondence = [(0, 1)]
    ∧ (exM1.merge_molecule exM1).ret = Option.none := by
  refine ⟨rfl, rfl, rfl⟩

/-- C4: evaluating the removal test of `do_mapping` line 403. The test reads
`graph_out[out_idx]` — the integer-keyed adjacency dictionary — instead of
the node's attributes, so `.get('atomname', '')` never yields `None`, no
particle is ever queued for removal, and a particle whose resolved
`atomname` is `None` survives into the returned molecule. -/
theorem do_mapping_never_removes :
    (∀ (g : Molecule) (idx : Nat), removalTest g idx = false)
    ∧ (∀ (g : Molecule) (outIdxs : List Nat), doMappingToRemove g outIdxs = [])
    ∧ removeNodesFrom exMolNoneName (doMappingToRemove exMolNoneName [0, 1])
        = exMolNoneName
    ∧ attrGet ((exMolNoneName.getNode 0).getD exParticle).attrs "atomname"
        = PyVal.none := by
  have h1 : ∀ (g : Molecule) (idx : Nat), removalTest g idx = false := by
    intro g idx
    unfold removalTest
    cases adjacencyGetAtomname g idx <;> rfl
  refine ⟨h1, fun g outIdxs => ?_, by decide, rfl⟩
  exact List.filter_eq_nil_iff.mpr (fun a _ => by simp [h1 g a])

/-- C2 (amended): merging a molecule whose node ids are `0, ..., n-1` in
insertion order into a nonempty compatible molecule yields `|M1| + |M2|`
particles, and every interaction and edge of M2 appears in the merged graph
with its atom ids shifted by exactly `max(M1 ids) + 1`. The contiguity of
M2's ids is the amendment: `merge_molecule` renumbers the `j`-th node of M2
to `max(M1 ids) + 1 + j`, which is a uniform shift only for contiguous ids.
The two well-formedness hypotheses restate the data-model invariant that
interactions and edges only reference existing particles. -/
theorem merge_molecule_spec (m1 m2 : Molecule)
    (hne : m1.nodes ≠ [])
    (hkeys : m2.nodes.map Prod.fst = List.range m2.nodes.length)
    (hff : m1.forceField = m2.forceField)
    (hnr : m1.nrexcl = m2.nrexcl)
    (hwfI : ∀ tl ∈ m2.interactions, ∀ i ∈ tl.2, ∀ a ∈ i.atoms, m2.hasNode a = true)
    (hwfE : ∀ e ∈ m2.edges, m2.hasNode e.1 = true ∧ m2.hasNode e.2 = true) :
    (m1.merge_molecule m2).error = Option.none
    ∧ (m1.merge_molecule m2).state.nodes.length = m1.nodes.length + m2.nodes.length
    ∧ (∀ tl ∈ m2.interactions, ∀ i ∈ tl.2,
        Molecule.shiftInteraction (Molecule.mergeOffset m1) i
          ∈ (m1.merge_molecule m2).state.interactionsGet tl.1)
    ∧ (∀ e ∈ m2.edges,
        (m1.merge_molecule m2).state.hasEdgeN
          (Molecule.mergeOffset m1 + e.1) (Molecule.mergeOffset m1 + e.2) = true) := by
  have hkeysne : m1.keys ≠ [] := by
    intro hc
    exact hne (List.map_eq_nil_iff.mp hc)
  obtain ⟨M, hM⟩ : ∃ M, Molecule.maxKey m1 = some M := by
    unfold Molecule.maxKey
    cases hks : m1.keys with
    | nil => exact absurd hks hkeysne
    | cons k ks => exact ⟨_, rfl⟩
  obtain ⟨pM, hpM⟩ := lookup_of_mem_keys m1.nodes M (maxKey_mem hM)
  have hoff : Molecule.mergeOffset m1 = M + 1 := by
    unfold Molecule.mergeOffset
    rw [hM]
  have hnodup : (m2.nodes.map Prod.fst).Nodup := by
    rw [hkeys]
    exact List.nodup_range _
  have hmemkeys : ∀ a, m2.hasNode a = true → a < m2.nodes.length := by
    intro a ha
    have hmem := (hasNode_iff m2 a).mp ha
    unfold Molecule.keys at hmem
    rw [hkeys] at hmem
    exact List.mem_range.mp hmem
  have hget : ∀ (a : Nat) (ha : a < m2.nodes.length), (m2.nodes.get ⟨a, ha⟩).1 = a := by
    intro a ha
    have h1 : (m2.nodes.map Prod.fst).get ⟨a, by simpa using ha⟩
        = (m2.nodes.get ⟨a, ha⟩).1 := by simp
    rw [← h1, List.get_of_eq hkeys ⟨a, by simpa using ha⟩]
    simp
  have hcorr : ∀ a, a < m2.nodes.length →
      Molecule.corrLookup (Molecule.mergeCorrespondence (M + 1) m2.nodes) a
        = some ((M + 1) + a) := by
    intro a ha
    have hg := hget a ha
    have hl := mergeCorrespondence_lookup m2.nodes (M + 1) a hnodup ha
    rw [hg] at hl
    exact hl
  have hLfst : (Molecule.mergeNewNodes (M + 1) (pM.resid + 1)
        (pM.charge_group.getD (-1) + 1) m2.nodes).map Prod.fst
      = (enumerateFrom (M + 1) m2.nodes).map Prod.fst :=
    mergeNewNodes_fst _ _ _ _
  have hfresh : ∀ kp ∈ Molecule.mergeNewNodes (M + 1) (pM.resid + 1)
      (pM.charge_group.getD (-1) + 1) m2.nodes, ∀ k' ∈ m1.keys, k' < kp.1 := by
    intro kp hkp k' hk'
    have hk'M : k' ≤ M := maxKey_le hM k' hk'
    unfold Molecule.mergeNewNodes at hkp
    obtain ⟨jp, hjp, rfl⟩ := List.mem_map.mp hkp
    have := (enumerateFrom_fst_bounds m2.nodes (M + 1) jp hjp).1
    show k' < jp.1
    omega
  have hpwL : List.Pairwise (fun a b : Nat × Particle => a.1 < b.1)
      (Molecule.mergeNewNodes (M + 1) (pM.resid + 1)
        (pM.charge_group.getD (-1) + 1) m2.nodes) := by
    unfold Molecule.mergeNewNodes
    exact List.Pairwise.map _ (fun a b hab => hab)
      (enumerateFrom_fst_pairwise m2.nodes (M + 1))
  have hstate1 : (Molecule.mergeNewNodes (M + 1) (pM.resid + 1)
        (pM.charge_group.getD (-1) + 1) m2.nodes).foldl
          (fun st kp => Molecule.addNode st kp.1 kp.2) m1
      = { m1 with nodes := m1.nodes ++ (Molecule.mergeNewNodes (M + 1) (pM.resid + 1)
            (pM.charge_group.getD (-1) + 1) m2.nodes) } :=
    foldl_addNode_fresh _ m1 hfresh hpwL
  have hstate1node : ∀ a, a < m2.nodes.length →
      Molecule.hasNode { m1 with nodes := m1.nodes ++ (Molecule.mergeNewNodes (M + 1)
          (pM.resid + 1) (pM.charge_group.getD (-1) + 1) m2.nodes) } ((M + 1) + a)
        = true := by
    intro a ha
    rw [hasNode_iff]
    unfold Molecule.keys
    show (M + 1) + a ∈ (m1.nodes ++ _).map Prod.fst
    rw [List.map_append]
    apply List.mem_append_right
    rw [hLfst]
    exact enumerateFrom_mem_fst m2.nodes (M + 1) a ha
  obtain ⟨st2, heq2, hn2, he2, hmono2, hall2⟩ :=
    mergeInteractions_spec (Molecule.mergeCorrespondence (M + 1) m2.nodes) (M + 1)
      m2.interactions
      { m1 with nodes := m1.nodes ++ (Molecule.mergeNewNodes (M + 1) (pM.resid + 1)
          (pM.charge_group.getD (-1) + 1) m2.nodes) }
      (fun tl htl i hi a ha =>
        ⟨hcorr a (hmemkeys a (hwfI tl htl i hi a ha)),
         hstate1node a (hmemkeys a (hwfI tl htl i hi a ha))⟩)
  obtain ⟨st3, heq3, hn3, hi3, hmono3, hall3⟩ :=
    mergeEdges_spec (Molecule.mergeCorrespondence (M + 1) m2.nodes) (M + 1)
      m2.edges st2
      (fun e he =>
        ⟨hcorr e.1 (hmemkeys e.1 (hwfE e he).1),
         hcorr e.2 (hmemkeys e.2 (hwfE e he).2)⟩)
  have hres : m1.merge_molecule m2
      = Molecule.MergeResult.mk st3 Option.none Option.none
          (Molecule.mergeCorrespondence (M + 1) m2.nodes) := by
    unfold Molecule.merge_molecule
    rw [if_neg (fun hc => hc hff), if_neg (fun hc => hc hnr)]
    simp only [hM, Molecule.getNode, hpM]
    simp only [Molecule.mergeBody, hstate1, heq2, heq3]
  rw [hres, hoff]
  refine ⟨rfl, ?_, ?_, ?_⟩
  · show st3.nodes.length = m1.nodes.length + m2.nodes.length
    rw [hn3, hn2]
    show (m1.nodes ++ _).length = _
    rw [List.length_append]
    congr 1
    unfold Molecule.mergeNewNodes
    rw [List.length_map, enumerateFrom_length]
  · intro tl htl i hi
    show Molecule.shiftInteraction (M + 1) i ∈ st3.interactionsGet tl.1
    have hmem := hall2 tl htl i hi
    show Molecule.shiftInteraction (M + 1) i ∈ interactionsLookup st3.interactions tl.1
    rw [hi3]
    exact hmem
  · intro e he
    exact hall3 e he

/-- Witness for C2: merging the two-particle molecule with ids 0, 1 into a
one-particle molecule. -/
theorem merge_molecule_spec_witness :
    (exM1.merge_molecule exM2).error = Option.none
    ∧ (exM1.merge_molecule exM2).state.nodes.length
        = exM1.nodes.length + exM2.nodes.length
    ∧ (∀ tl ∈ exM2.interactions, ∀ i ∈ tl.2,
        Molecule.shiftInteraction (Molecule.mergeOffset exM1) i
          ∈ (exM1.merge_molecule exM2).state.interactionsGet tl.1)
    ∧ (∀ e ∈ exM2.edges,
        (exM1.merge_molecule exM2).state.hasEdgeN
          (Molecule.mergeOffset exM1 + e.1) (Molecule.mergeOffset exM1 + e.2)
          = true) :=
  merge_molecule_spec exM1 exM2 (by decide) (by decide) rfl rfl (by decide) (by decide)

/-- C2 counterexample: M2 has the non-contiguous ids 0 and 2 with an edge
between them. The merge relabels them to 1 and 2 (enumeration order), so the
edge predicted by a uniform shift of `max(M1 ids) + 1 = 1` — between 1 and
3 — is absent, and the edge between 1 and 2 is present instead. -/
theorem merge_molecule_shift_counterexample :
    (exM1.merge_molecule exM2gap).error = Option.none
    ∧ (exM1.merge_molecule exM2gap).state.hasEdgeN 1 3 = false
    ∧ (exM1.merge_molecule exM2gap).state.hasEdgeN 1 2 = true := by
  refine ⟨rfl, rfl, rfl⟩

/-- C3 (amended): all block and modification matches are merged in ascending
order of their minimum source-atom id (the output is sorted and is a
permutation of the two tagged input lists), and when the lowest block minimum
is less than *or equal to* the lowest modification minimum the block match is
taken first — a modification match is preferred only when its minimum id is
strictly lower. -/
theorem do_mapping_merge_order (blocks mods : List Nat) :
    List.Sorted (· ≤ ·) ((doMappingOrder blocks mods).map Prod.snd)
    ∧ (doMappingOrder blocks mods).Perm
        (blocks.map (fun n => (true, n)) ++ mods.map (fun n => (false, n)))
    ∧ (∀ b bs m ms, sortAscending blocks = b :: bs → sortAscending mods = m :: ms →
        b ≤ m → (doMappingOrder blocks mods).head? = some (true, b)) := by
  refine ⟨?_, ?_, ?_⟩
  · exact mergeMatchOrder_sorted _ _ (List.sorted_insertionSort _ _)
      (List.sorted_insertionSort _ _)
  · refine (mergeMatchOrder_perm _ _).trans (List.Perm.append ?_ ?_)
    · exact (List.perm_insertionSort _ blocks).map _
    · exact (List.perm_insertionSort _ mods).map _
  · intro b bs m ms h1 h2 hle
    unfold doMappingOrder
    rw [h1, h2, mergeMatchOrder, if_neg (Nat.not_lt.mpr hle)]
    rfl

/-- Witness for C3 at a concrete input. -/
theorem do_mapping_merge_order_witness :
    (doMappingOrder [2, 7] [4]).head? = some (true, 2) :=
  (do_mapping_merge_order [2, 7] [4]).2.2 2 [7] 4 [] rfl rfl (by decide)

/-- C3 counterexample: one block match and one modification match with the
*same* minimum source-atom id 5. The claim prefers the modification on an
equal minimum, but the code's strict `<` comparison pops the block match
first. -/
theorem do_mapping_merge_order_counterexample :
    doMappingOrder [5] [5] = [(true, 5), (false, 5)] := by
  simp [doMappingOrder, sortAscending, mergeMatchOrder]

/-- C8 (amended): starting from a block with no pre-existing edges,
`make_edges_from_interactions` produces exactly the union, over the fixed
edge-generating interaction types with edge generation not disabled, of the
consecutive atom pairs; disabled interactions and unknown types contribute
nothing. (Pre-existing edges are kept, which is the amendment.) -/
theorem make_edges_exact_union (b : Block) (hb : b.edges = []) (u v : String) :
    (b.make_edges_from_interactions).hasEdge u v = b.specEdgeUnion u v := by
  unfold Block.make_edges_from_interactions
  rw [hasEdge_make_edges_aux Block.knownTypes b u v b rfl]
  have h0 : b.hasEdge u v = false := by
    unfold Block.hasEdge
    rw [hb]
    rfl
  rw [h0, Bool.false_or]
  rfl

/-- Witness for C8: the linear three-atom block A-B-C. -/
theorem make_edges_exact_union_witness :
    (exBlock.make_edges_from_interactions).hasEdge "A" "B" = exBlock.specEdgeUnion "A" "B" :=
  make_edges_exact_union exBlock rfl "A" "B"

/-- C8 counterexample: a block with a pre-existing edge X-Y and no
interactions at all. After `make_edges_from_interactions` the edge X-Y is
still in the edge set although the union of consecutive atom pairs over the
edge-generating interactions is empty, so the edge set is not *exactly* that
union. -/
theorem make_edges_counterexample :
    (exBlockPre.make_edges_from_interactions).hasEdge "X" "Y" = true
    ∧ exBlockPre.specEdgeUnion "X" "Y" = false := by
  constructor <;> rfl

/-- C6 (amended): provided every candidate option is nonempty and lists no
name twice, `cover` returns the empty cover for an empty `to_cover`, any
returned cover is a list of options whose concatenated names equal
`to_cover` as a multiset, and it returns `None` exactly when no such exact
cover by the options (with repetition) exists. The two provisos are the
amendment: an option with a repeated name can make the search raise
`ValueError`, and an empty option recurses without bound. -/
theorem cover_exact_cover (to_cover : List String) (options : List (List String))
    (hne : ∀ o ∈ options, o ≠ []) (hnd : ∀ o ∈ options, o.Nodup) :
    (to_cover = [] → cover to_cover options = .ok (some []))
    ∧ (∀ (sol : List (List String)), cover to_cover options = .ok (some sol) →
        sol.flatten.Perm to_cover ∧ ∀ o ∈ sol, o ∈ options)
    ∧ (cover to_cover options = .ok Option.none
        ↔ ¬ ∃ (sol : List (List String)), (∀ o ∈ sol, o ∈ options)
            ∧ sol.flatten.Perm to_cover) := by
  refine ⟨?_, ?_, ?_, ?_⟩
  · intro h
    subst h
    rfl
  · intro sol h
    exact coverF_sound _ _ _ _ h
  · intro h hex
    obtain ⟨sol, hsub, hperm⟩ := hex
    exact coverF_complete _ _ _ _ hsub hperm h
  · intro hnex
    obtain ⟨r, hr⟩ := coverF_no_crash (to_cover.length + 1) to_cover options hne hnd
      (by omega)
    cases r with
    | some sol =>
      exact absurd ⟨sol, (coverF_sound _ _ _ _ hr).2, (coverF_sound _ _ _ _ hr).1⟩ hnex
    | none => exact hr

/-- Witness for C6 at a concrete input. -/
theorem cover_exact_cover_witness :
    cover ["x", "y"] [["y"], ["x"]] = .ok Option.none
      ↔ ¬ ∃ (sol : List (List String)), (∀ o ∈ sol, o ∈ [["y"], ["x"]])
          ∧ sol.flatten.Perm ["x", "y"] :=
  (cover_exact_cover ["x", "y"] [["y"], ["x"]] (by decide) (by decide)).2.2

/-- C6 counterexample: with `to_cover = [a]` and the options `[a, a]` and
`[a]`, an exact cover exists (`[[a]]`), but the code tries `[a, a]` first:
the usability test `all(item in to_cover)` passes, the second `remove`
raises `ValueError`, and the exception aborts the whole search instead of
returning the cover. -/
theorem cover_counterexample :
    cover ["a"] [["a", "a"], ["a"]] = .error "ValueError: x not in list"
    ∧ (∀ o ∈ [["a"]], o ∈ [["a", "a"], ["a"]])
    ∧ (List.flatten [["a"]]).Perm ["a"] := by
  refine ⟨rfl, by decide, by decide⟩

end Vermouth
